import Mathlib

set_option maxHeartbeats 1000000

/-!
Shallow embedding of the Shared repository's core:

* `src/contracts/contracts/PostContract.sol` — the append-only post ledger
  (counter, post table, tag index, tag registry) and its queries.  Solidity
  `uint256` values are modelled as `Nat` (no operation here comes close to
  2^256), `address` as `Nat`, `string` as Lean `String`; Solidity's
  `bytes(s).length` is a UTF-8 byte count and is modelled by
  `String.utf8ByteSize`.  A failing `require` reverts the whole call, so a
  transaction is modelled as `Except String ContractState` and a reverted
  transaction leaves the caller's state untouched (`step`).
* `src/frontend/src/utils/tagParser.ts` — `extractTags` / `removeTagMarkers`
  over the regex `#([a-zA-Z0-9一-龥]+)` with matches longer than 50
  UTF-16 units dropped, deduplicated by first occurrence.
* `src/backend/main.go` — `extractTags` / `removeTagMarkers` over the regex
  `#([a-zA-Z0-9\p{Han}]+)` with no length filter, deduplicated by first
  occurrence via a seen-map.

The regex `#(C+)` for a one-character class `C` is embedded as a left-to-right
scanner: at each `#` the maximal non-empty run of class characters that
follows is one match, and scanning resumes at the character that terminated
the run, exactly as `matchAll` / `FindAllStringSubmatch` advance `lastIndex`.
All characters of a match are in the Basic Multilingual Plane for both
classes, so JavaScript's UTF-16 length, Go's rune count and Lean's `Char`
count agree on matches.
-/

/-- Content type enumeration of the contract (`TEXT`, `IMAGE`, `VIDEO`). -/
inductive ContentType
  | TEXT
  | IMAGE
  | VIDEO
  deriving DecidableEq, Repr

/-- The `Post` struct of `PostContract.sol`. -/
structure Post where
  id : Nat
  ipfsHash : String
  contentType : ContentType
  timestamp : Nat
  publisher : Nat
  tags : List String
  deriving DecidableEq, Repr

/-- The default value of a Solidity `Post` mapping entry: all fields zero. -/
def emptyPost : Post :=
  { id := 0, ipfsHash := "", contentType := .TEXT, timestamp := 0,
    publisher := 0, tags := [] }

/-- The storage of `PostContract`: `postCounter`, the `posts` mapping, the
`tagToPosts` index, the `allTags` registry and the `tagExists` seen-map. -/
structure ContractState where
  postCounter : Nat
  posts : Nat → Post
  tagToPosts : String → List Nat
  allTags : List String
  tagExists : String → Bool

/-- The state of a freshly deployed contract: every mapping holds its
default value and the counter is zero. -/
def ContractState.init : ContractState :=
  { postCounter := 0, posts := fun _ => emptyPost, tagToPosts := fun _ => [],
    allTags := [], tagExists := fun _ => false }

/-- Arguments of one `createPost` transaction.  `timestamp` stands for
`block.timestamp` and `publisher` for `msg.sender`, both supplied by the
execution environment. -/
structure CallArgs where
  ipfsHash : String
  contentType : ContentType
  timestamp : Nat
  publisher : Nat
  tags : List String
  deriving DecidableEq, Repr

/-- The `Post` record that `createPost` stores for id `i` and arguments `a`. -/
def mkPost (i : Nat) (a : CallArgs) : Post :=
  { id := i, ipfsHash := a.ipfsHash, contentType := a.contentType,
    timestamp := a.timestamp, publisher := a.publisher, tags := a.tags }

/-- `tagToPosts[_tags[i]].push(postCounter)` (contract line 66): append the
new post id to the tag's index list. -/
def pushTag (s : ContractState) (pid : Nat) (t : String) : ContractState :=
  { s with tagToPosts := fun q => if q = t then s.tagToPosts q ++ [pid] else s.tagToPosts q }

/-- Lines 69-72 of the contract: if the tag has never been seen, append it
to the registry and mark it seen. -/
def registerTag (s : ContractState) (t : String) : ContractState :=
  if s.tagExists t then s
  else { s with allTags := s.allTags ++ [t],
                tagExists := fun q => if q = t then true else s.tagExists q }

/-- The tag-validation loop of `createPost` (lines 61-73 of the contract):
for each tag in caller order, `require` non-empty and at most 50 bytes,
append the new post id to `tagToPosts[tag]`, and if the tag was never seen,
append it to `allTags` and mark it in `tagExists`. -/
def processTags : ContractState → Nat → List String → Except String ContractState
  | s, _, [] => .ok s
  | s, pid, t :: rest =>
    if t.utf8ByteSize = 0 then .error "Tag cannot be empty"
    else if 50 < t.utf8ByteSize then .error "Tag too long (max 50 chars)"
    else processTags (registerTag (pushTag s pid t) t) pid rest

/-- `createPost` (contract lines 50-92): `require` a non-empty hash and at
most 10 tags, increment the counter, run the tag loop, then store the post.
A `.error` models a revert of the whole transaction. -/
def createPost (s : ContractState) (a : CallArgs) : Except String ContractState :=
  if a.ipfsHash.utf8ByteSize = 0 then .error "IPFS hash cannot be empty"
  else if 10 < a.tags.length then .error "Too many tags (max 10)"
  else
    let pid := s.postCounter + 1
    match processTags { s with postCounter := pid } pid a.tags with
    | .error e => .error e
    | .ok s2 =>
      .ok { s2 with posts := fun i => if i = pid then mkPost pid a else s2.posts i }

/-- Applying a `createPost` transaction to the chain: a revert leaves the
state unchanged (EVM semantics). -/
def step (s : ContractState) (a : CallArgs) : ContractState :=
  match createPost s a with
  | .ok s2 => s2
  | .error _ => s

/-- Apply a sequence of `createPost` transactions in order. -/
def execAll : ContractState → List CallArgs → ContractState
  | s, [] => s
  | s, a :: rest => execAll (step s a) rest

/-- `isOkB r` is true when the transaction result `r` did not revert. -/
def isOkB : Except String ContractState → Bool
  | .ok _ => true
  | .error _ => false

/-- True when every transaction of the sequence succeeds when applied in
order from `s`. -/
def allOk : ContractState → List CallArgs → Bool
  | _, [] => true
  | s, a :: rest => isOkB (createPost s a) && allOk (step s a) rest

/-- `getPost` (contract lines 99-102): `require` the id is in `[1, N]`. -/
def getPost (s : ContractState) (i : Nat) : Except String Post :=
  if 0 < i ∧ i ≤ s.postCounter then .ok (s.posts i) else .error "Invalid post ID"

/-- `getLatestPosts` (contract lines 109-120): `require` a positive count,
clamp it to the total, and return `posts[N - i]` for `i = 0 .. count-1`. -/
def getLatestPosts (s : ContractState) (c : Nat) : Except String (List Post) :=
  if c = 0 then .error "Count must be greater than 0"
  else
    let count := if s.postCounter < c then s.postCounter else c
    .ok ((List.range count).map (fun i => s.posts (s.postCounter - i)))

/-- `getPostsByTag` (contract lines 127-136): map the tag's index list
through the post table.  The Solidity function has no `require`, so it is a
total function here. -/
def getPostsByTag (s : ContractState) (t : String) : List Post :=
  (s.tagToPosts t).map s.posts

/-- `getPostCountByTag` (contract lines 143-145). -/
def getPostCountByTag (s : ContractState) (t : String) : Nat :=
  (s.tagToPosts t).length

/-- `getAllTags` (contract lines 151-153). -/
def getAllTags (s : ContractState) : List String :=
  s.allTags

/-- One innerPass of the inner loop of `getTopTags` for a fixed outer index `i`:
the running value `v` at slot `i` is compared against each later slot in
turn and swapped with it whenever the later count is strictly larger.  The
result is the final value of slot `i` together with the updated tail.  The
`tags` and `counts` arrays of the contract always move together, so a slot
is one `String × Nat` pair. -/
def innerPass (v : String × Nat) : List (String × Nat) → (String × Nat) × List (String × Nat)
  | [] => (v, [])
  | x :: xs =>
    if v.2 < x.2 then
      let r := innerPass x xs
      (r.1, v :: r.2)
    else
      let r := innerPass v xs
      (r.1, x :: r.2)

/-- The double loop of `getTopTags` (contract lines 181-194), with fuel equal
to the list length: the outer loop fixes slot `i`, the inner loop is `innerPass`.
This exchange sort orders counts descending but is not stable. -/
def exchSortFuel : Nat → List (String × Nat) → List (String × Nat)
  | 0, l => l
  | _ + 1, [] => []
  | n + 1, x :: xs => (innerPass x xs).1 :: exchSortFuel n (innerPass x xs).2

/-- The sort of `getTopTags` over the whole temp array. -/
def exchSort (l : List (String × Nat)) : List (String × Nat) :=
  exchSortFuel l.length l

/-- `getTopTags` (contract lines 161-203): `require` a positive count, build
`(tag, tagToPosts[tag].length)` for every registered tag (the zipped
`tempTags` / `tempCounts` arrays), sort with the exchange sort, and return
the first `min(count, allTags.length)` pairs. -/
def getTopTags (s : ContractState) (c : Nat) : Except String (List (String × Nat)) :=
  if c = 0 then .error "Count must be greater than 0"
  else
    let resultCount := if s.allTags.length < c then s.allTags.length else c
    let temp := s.allTags.map (fun t => (t, (s.tagToPosts t).length))
    .ok ((exchSort temp).take resultCount)

/-- `getPostsInRange` (contract lines 211-226): `require` the start in
`[1, N]` and the end in `[start, N]`, then return `posts[start + i]` for
`i = 0 .. end - start`. -/
def getPostsInRange (s : ContractState) (a b : Nat) : Except String (List Post) :=
  if ¬(0 < a ∧ a ≤ s.postCounter) then .error "Invalid start ID"
  else if ¬(a ≤ b ∧ b ≤ s.postCounter) then .error "Invalid end ID"
  else .ok ((List.range (b - a + 1)).map (fun i => s.posts (a + i)))

/-- `getTotalPosts` (contract lines 232-234). -/
def getTotalPosts (s : ContractState) : Nat :=
  s.postCounter

/-- `postExists` (contract lines 241-243). -/
def postExists (s : ContractState) (i : Nat) : Bool :=
  decide (0 < i) && decide (i ≤ s.postCounter)

/-- True when `n` lies in the inclusive range `[lo, hi]`. -/
def inRange (lo hi n : Nat) : Bool :=
  decide (lo ≤ n ∧ n ≤ hi)

/-- ASCII letter or digit: the `a-zA-Z0-9` part of both tag regexes. -/
def isAsciiAlnum (c : Char) : Bool :=
  inRange 0x41 0x5a c.toNat || inRange 0x61 0x7a c.toNat || inRange 0x30 0x39 c.toNat

/-- The Unicode Han script, transcribed from the range table used by Go's
`regexp` for `\p{Han}` (Unicode 15.0). -/
def isHan (c : Char) : Bool :=
  let n := c.toNat
  inRange 0x2e80 0x2e99 n || inRange 0x2e9b 0x2ef3 n ||
  inRange 0x2f00 0x2fd5 n || decide (n = 0x3005) || decide (n = 0x3007) ||
  inRange 0x3021 0x3029 n || inRange 0x3038 0x303b n ||
  inRange 0x3400 0x4dbf n || inRange 0x4e00 0x9fff n ||
  inRange 0xf900 0xfa6d n || inRange 0xfa70 0xfad9 n ||
  inRange 0x16fe2 0x16fe3 n || inRange 0x16ff0 0x16ff1 n ||
  inRange 0x20000 0x2a6df n || inRange 0x2a700 0x2b739 n ||
  inRange 0x2b740 0x2b81d n || inRange 0x2b820 0x2cea1 n ||
  inRange 0x2ceb0 0x2ebe0 n || inRange 0x2ebf0 0x2ee5d n ||
  inRange 0x2f800 0x2fa1d n || inRange 0x30000 0x3134a n ||
  inRange 0x31350 0x323af n

/-- Character class of the frontend regex `[a-zA-Z0-9一-龥]`
(`tagParser.ts` line 7): ASCII alphanumerics and U+4E00 – U+9FA5. -/
def jsTagChar (c : Char) : Bool :=
  isAsciiAlnum c || inRange 0x4e00 0x9fa5 c.toNat

/-- Character class of the backend regex `[a-zA-Z0-9\p{Han}]`
(`main.go` line 55): ASCII alphanumerics and the Han script. -/
def goTagChar (c : Char) : Bool :=
  isAsciiAlnum c || isHan c

/-- Scanner state for the regex `#(C+)`: outside any candidate match, just
after a `#`, or inside a captured run with the accumulated characters in
reverse. -/
inductive ScanSt
  | out
  | hash
  | run (acc : List Char)

/-- Left-to-right global matching of `#(C+)` for the class `cls`: produce
the list of captured runs.  After a run ends, scanning resumes at the
terminating character, as `lastIndex` does for `matchAll` and
`FindAllStringSubmatch`. -/
def scanGo (cls : Char → Bool) : ScanSt → List Char → List (List Char)
  | .out, [] => []
  | .hash, [] => []
  | .run acc, [] => [acc.reverse]
  | .out, c :: rest =>
    if c = '#' then scanGo cls .hash rest else scanGo cls .out rest
  | .hash, c :: rest =>
    if cls c then scanGo cls (.run [c]) rest
    else if c = '#' then scanGo cls .hash rest
    else scanGo cls .out rest
  | .run acc, c :: rest =>
    if cls c then scanGo cls (.run (c :: acc)) rest
    else acc.reverse :: (if c = '#' then scanGo cls .hash rest else scanGo cls .out rest)

/-- All captured tag runs of a text, in order of occurrence. -/
def tagMatches (cls : Char → Bool) (l : List Char) : List (List Char) :=
  scanGo cls .out l

/-- First-occurrence deduplication with an accumulator of already seen
values: the `Set` of the frontend extractor and the `seen` map of the
backend extractor. -/
def dedupAux : List String → List String → List String
  | _, [] => []
  | seen, x :: xs =>
    if x ∈ seen then dedupAux seen xs else x :: dedupAux (x :: seen) xs

/-- Frontend `extractTags` (`tagParser.ts` lines 14-30): match the tag
regex globally, keep captures of length at most 50 (UTF-16 units, which
equals the character count since all class characters are in the BMP), and
deduplicate keeping first occurrences. -/
def extractTagsTs (text : String) : List String :=
  dedupAux []
    (((tagMatches jsTagChar text.data).filter (fun r => decide (r.length ≤ 50))).map
      (fun r => String.mk r))

/-- Backend `extractTags` (`main.go` lines 64-81): match the tag regex
globally and deduplicate keeping first occurrences; no length filter. -/
def extractTagsGo (text : String) : List String :=
  dedupAux [] ((tagMatches goTagChar text.data).map (fun r => String.mk r))

/-- State of the marker-removal scanner: outside a candidate, holding a
pending `#` that may start a match, or inside a matched run. -/
inductive RmSt
  | out
  | hash
  | run

/-- Replacement of every match of `#(C+)` by its captured group: drop the
`#` of each match and keep everything else.  This is
`text.replace(TAG_REGEX, dollar-one)` of the frontend and
`ReplaceAllString(text, dollar-one)` of the backend. -/
def rmGo (cls : Char → Bool) : RmSt → List Char → List Char
  | .out, [] => []
  | .hash, [] => ['#']
  | .run, [] => []
  | .out, c :: rest =>
    if c = '#' then rmGo cls .hash rest else c :: rmGo cls .out rest
  | .hash, c :: rest =>
    if cls c then c :: rmGo cls .run rest
    else if c = '#' then '#' :: rmGo cls .hash rest
    else '#' :: c :: rmGo cls .out rest
  | .run, c :: rest =>
    if cls c then c :: rmGo cls .run rest
    else if c = '#' then rmGo cls .hash rest
    else c :: rmGo cls .out rest

/-- Frontend `removeTagMarkers` (`tagParser.ts` lines 90-92). -/
def removeTagMarkersTs (text : String) : String :=
  String.mk (rmGo jsTagChar .out text.data)

/-- Backend `removeTagMarkers` (`main.go` lines 84-87). -/
def removeTagMarkersGo (text : String) : String :=
  String.mk (rmGo goTagChar .out text.data)

/-- The specification's notion of a tag token of `l`: a non-empty run `t`
of class characters introduced by a `#` marker and not extendable to the
right (the character after the run, when any, is outside the class). -/
def IsTagToken (cls : Char → Bool) (l t : List Char) : Prop :=
  ∃ pre post, l = pre ++ '#' :: (t ++ post) ∧ t ≠ [] ∧
    (∀ c ∈ t, cls c = true) ∧ (∀ c, post.head? = some c → cls c = false)

/-- Modelled from the spec: "duplicate tokens within the same text collapse
to one (first occurrence wins for ordering)" — keep the first occurrence of
every value, drop the later ones. -/
def keepFirstOccurrences : List String → List String
  | [] => []
  | x :: xs => x :: keepFirstOccurrences (xs.filter (fun y => y != x))
termination_by l => l.length
decreasing_by
  simp only [List.length_cons]
  exact Nat.lt_succ_of_le (List.length_filter_le _ _)


/-! ### Basic facts about `createPost` transactions -/

lemma isOkB_false_iff (x : Except String ContractState) :
    isOkB x = false ↔ ∃ e, x = .error e := by
  cases x <;> simp [isOkB]

lemma isOkB_true_iff (x : Except String ContractState) :
    isOkB x = true ↔ ∃ s, x = .ok s := by
  cases x <;> simp [isOkB]

lemma registerTag_tagToPosts (s : ContractState) (t : String) :
    (registerTag s t).tagToPosts = s.tagToPosts := by
  unfold registerTag; split <;> rfl

lemma registerTag_posts (s : ContractState) (t : String) :
    (registerTag s t).posts = s.posts := by
  unfold registerTag; split <;> rfl

lemma registerTag_postCounter (s : ContractState) (t : String) :
    (registerTag s t).postCounter = s.postCounter := by
  unfold registerTag; split <;> rfl

/-- A tag passes the two `require`s of the loop iff it is non-empty and at
most 50 bytes; the loop fails iff some tag fails. -/
lemma processTags_not_ok_iff (tags : List String) :
    ∀ s pid, isOkB (processTags s pid tags) = false ↔
      ∃ t ∈ tags, t.utf8ByteSize = 0 ∨ 50 < t.utf8ByteSize := by
  induction tags with
  | nil => intro s pid; simp [processTags, isOkB]
  | cons t rest ih =>
    intro s pid
    by_cases h0 : t.utf8ByteSize = 0
    · simp only [processTags, h0, if_true]
      simp [isOkB, h0]
    · by_cases h1 : 50 < t.utf8ByteSize
      · simp only [processTags, h0, if_false, h1, if_true]
        simp [isOkB, h1]
      · simp only [processTags, h0, if_false, h1]
        rw [ih]
        simp [h0, h1]

/-- The tag loop never touches the post table or the counter. -/
lemma processTags_ok_posts (tags : List String) :
    ∀ s pid s', processTags s pid tags = .ok s' →
      s'.posts = s.posts ∧ s'.postCounter = s.postCounter := by
  induction tags with
  | nil =>
    intro s pid s' h
    simp only [processTags] at h
    cases h
    exact ⟨rfl, rfl⟩
  | cons t rest ih =>
    intro s pid s' h
    simp only [processTags] at h
    by_cases h0 : t.utf8ByteSize = 0
    · simp [h0] at h
    · by_cases h1 : 50 < t.utf8ByteSize
      · simp [h0, h1] at h
      · simp only [h0, if_false, h1] at h
        rcases ih _ pid s' h with ⟨hp, hc⟩
        rw [hp, hc, registerTag_posts, registerTag_postCounter]
        exact ⟨rfl, rfl⟩

/-- Effect of the tag loop on the index when the tag list has no duplicate:
each listed tag gets the new post id appended once, other tags are
untouched. -/
lemma processTags_ok_tagToPosts (tags : List String) :
    ∀ s pid s', tags.Nodup → processTags s pid tags = .ok s' →
      ∀ q, s'.tagToPosts q =
        s.tagToPosts q ++ if q ∈ tags then [pid] else [] := by
  induction tags with
  | nil =>
    intro s pid s' _ h q
    simp only [processTags] at h
    cases h
    simp
  | cons t rest ih =>
    intro s pid s' hnd h q
    simp only [processTags] at h
    by_cases h0 : t.utf8ByteSize = 0
    · simp [h0] at h
    · by_cases h1 : 50 < t.utf8ByteSize
      · simp [h0, h1] at h
      · simp only [h0, if_false, h1] at h
        rcases List.nodup_cons.mp hnd with ⟨htr, hndr⟩
        have step2 := ih _ pid s' hndr h q
        rw [registerTag_tagToPosts] at step2
        by_cases hq : q = t
        · subst hq
          simp only [pushTag, if_pos rfl] at step2
          rw [step2, if_neg htr, if_pos (List.mem_cons_self _ _)]
          simp
        · simp only [pushTag, if_neg hq] at step2
          rw [step2]
          simp [List.mem_cons, hq]

/-- `createPost` fails exactly when the reference is empty, more than ten
tags are given, or some tag is empty or longer than 50 bytes. -/
lemma createPost_not_ok_iff (s : ContractState) (a : CallArgs) :
    isOkB (createPost s a) = false ↔
      a.ipfsHash.utf8ByteSize = 0 ∨ 10 < a.tags.length ∨
        ∃ t ∈ a.tags, t.utf8ByteSize = 0 ∨ 50 < t.utf8ByteSize := by
  by_cases h0 : a.ipfsHash.utf8ByteSize = 0
  · simp [createPost, h0, isOkB]
  · by_cases h1 : 10 < a.tags.length
    · simp [createPost, h0, h1, isOkB]
    · simp only [createPost, h0, if_false, h1]
      have hpt := processTags_not_ok_iff a.tags
        { s with postCounter := s.postCounter + 1 } (s.postCounter + 1)
      cases hm : processTags { s with postCounter := s.postCounter + 1 }
          (s.postCounter + 1) a.tags with
      | error e =>
        simp only [hm] at hpt
        simp only [isOkB] at hpt ⊢
        simp [h0, h1, ← hpt]
      | ok s2 =>
        simp only [hm] at hpt
        simp only [isOkB] at hpt ⊢
        simp [h0, h1, ← hpt]

/-- On success, the new state has counter `N + 1` and the post table is the
old one with the new post stored at `N + 1`. -/
lemma createPost_ok_spec (s : ContractState) (a : CallArgs) (s' : ContractState)
    (h : createPost s a = .ok s') :
    s'.postCounter = s.postCounter + 1 ∧
    (∀ i, s'.posts i =
      if i = s.postCounter + 1 then mkPost (s.postCounter + 1) a else s.posts i) := by
  simp only [createPost] at h
  by_cases h0 : a.ipfsHash.utf8ByteSize = 0
  · simp [h0] at h
  · by_cases h1 : 10 < a.tags.length
    · simp [h0, h1] at h
    · simp only [h0, if_false, h1] at h
      cases hm : processTags { s with postCounter := s.postCounter + 1 }
          (s.postCounter + 1) a.tags with
      | error e => rw [hm] at h; cases h
      | ok s2 =>
        rw [hm] at h
        cases h
        rcases processTags_ok_posts a.tags _ _ _ hm with ⟨hp, hc⟩
        refine ⟨hc, fun i => ?_⟩
        by_cases hi : i = s.postCounter + 1
        · simp [hi]
        · have : s2.posts i = s.posts i := by rw [hp]
          simp [hi, this]

/-- On success, the tag index of the new state, for a duplicate-free tag
list. -/
lemma createPost_ok_tagToPosts (s : ContractState) (a : CallArgs) (s' : ContractState)
    (hnd : a.tags.Nodup) (h : createPost s a = .ok s') :
    ∀ q, s'.tagToPosts q =
      s.tagToPosts q ++ if q ∈ a.tags then [s.postCounter + 1] else [] := by
  simp only [createPost] at h
  by_cases h0 : a.ipfsHash.utf8ByteSize = 0
  · simp [h0] at h
  · by_cases h1 : 10 < a.tags.length
    · simp [h0, h1] at h
    · simp only [h0, if_false, h1] at h
      cases hm : processTags { s with postCounter := s.postCounter + 1 }
          (s.postCounter + 1) a.tags with
      | error e => rw [hm] at h; cases h
      | ok s2 =>
        rw [hm] at h
        cases h
        intro q
        exact processTags_ok_tagToPosts a.tags _ _ _ hnd hm q

lemma step_of_ok {s : ContractState} {a : CallArgs} {s' : ContractState}
    (h : createPost s a = .ok s') : step s a = s' := by
  simp [step, h]

lemma step_of_error {s : ContractState} {a : CallArgs}
    (h : isOkB (createPost s a) = false) : step s a = s := by
  rcases (isOkB_false_iff _).mp h with ⟨e, he⟩
  simp [step, he]

/-- A call with one tag of 17 CJK characters: 17 characters but 51 UTF-8
bytes, so the contract's byte-length `require` rejects it. -/
def c2BadArgs : CallArgs :=
  { ipfsHash := "QmHash", contentType := .TEXT, timestamp := 0, publisher := 0,
    tags := ["汉汉汉汉汉汉汉汉汉汉汉汉汉汉汉汉汉"] }

/-- C2, counterexample: `createPost` measures tags in UTF-8 bytes, not
characters.  The call `c2BadArgs` has a non-empty reference, one tag, and
that tag is non-empty and only 17 characters long — none of the claim's four
failure conditions holds — yet the contract reverts with the tag-too-long
error because the tag occupies 51 bytes. -/
theorem c2_counterexample :
    createPost .init c2BadArgs = .error "Tag too long (max 50 chars)" ∧
    c2BadArgs.ipfsHash ≠ "" ∧
    c2BadArgs.tags.length ≤ 10 ∧
    (∀ t ∈ c2BadArgs.tags, t ≠ "" ∧ t.length ≤ 50) :=
  ⟨rfl, by decide, by decide, by decide⟩

/-- C2 (amended): `createPost` is atomic on failure — a failing call leaves
the whole state (counter, post table, tag index, tag registry) unchanged —
and it fails exactly when the reference is empty, more than 10 tags are
given, or some tag is empty or exceeds 50 UTF-8 bytes (the contract checks
`bytes(tag).length`, so a tag of at most 50 characters can still be
rejected when its UTF-8 encoding exceeds 50 bytes). -/
theorem c2_createPost_amended (s : ContractState) (a : CallArgs) :
    (isOkB (createPost s a) = false ↔
      a.ipfsHash.utf8ByteSize = 0 ∨ 10 < a.tags.length ∨
        ∃ t ∈ a.tags, t.utf8ByteSize = 0 ∨ 50 < t.utf8ByteSize) ∧
    (isOkB (createPost s a) = false → step s a = s) :=
  ⟨createPost_not_ok_iff s a, step_of_error⟩

/-- C2, witness: the amended theorem applied to the concrete failing call
`c2BadArgs`, whose revert leaves the initial state untouched. -/
theorem c2_createPost_amended_witness :
    step .init c2BadArgs = ContractState.init :=
  (c2_createPost_amended .init c2BadArgs).2 (by decide)

/-! ### Reachable states of the ledger -/

/-- Master description of a successful transaction sequence applied from an
arbitrary start state: the final counter, the untouched old entries, and
the post stored for each call. -/
lemma execAll_ok_spec (calls : List CallArgs) :
    ∀ s0, allOk s0 calls = true →
      (execAll s0 calls).postCounter = s0.postCounter + calls.length ∧
      (∀ i, i ≤ s0.postCounter → (execAll s0 calls).posts i = s0.posts i) ∧
      (∀ k a, calls.get? k = some a →
        (execAll s0 calls).posts (s0.postCounter + k + 1) =
          mkPost (s0.postCounter + k + 1) a) := by
  induction calls with
  | nil =>
    intro s0 _
    refine ⟨by simp [execAll], fun i _ => by simp [execAll], fun k a hka => ?_⟩
    simp at hka
  | cons c rest ih =>
    intro s0 hok
    simp only [allOk, Bool.and_eq_true] at hok
    rcases hok with ⟨hc, hrest⟩
    rcases (isOkB_true_iff _).mp hc with ⟨s1, hs1⟩
    have hstep : step s0 c = s1 := step_of_ok hs1
    rcases createPost_ok_spec s0 c s1 hs1 with ⟨hcnt, hposts⟩
    have hex : execAll s0 (c :: rest) = execAll s1 rest := by
      simp [execAll, hstep]
    rw [hstep] at hrest
    rcases ih s1 hrest with ⟨ih1, ih2, ih3⟩
    refine ⟨?_, ?_, ?_⟩
    · rw [hex, ih1, hcnt, List.length_cons]
      omega
    · intro i hi
      rw [hex, ih2 i (by omega), hposts i, if_neg (by omega)]
    · intro k a hka
      cases k with
      | zero =>
        have hac : c = a := by
          have : some c = some a := hka
          injection this
        subst hac
        rw [hex, ih2 _ (by omega), hposts, if_pos (by omega)]
      | succ k' =>
        have hk' : rest.get? k' = some a := hka
        have h3 := ih3 k' a hk'
        rw [hcnt] at h3
        rw [hex]
        have harith : s0.postCounter + (k' + 1) + 1 = s0.postCounter + 1 + k' + 1 := by
          omega
        rw [harith]
        exact h3

/-- The three-post scenario of the specification's §8: tags
`["tech","chain"]`, `["tech","ai"]`, `["chain"]` in order.  Used by the
witnesses of several claims. -/
def wCalls : List CallArgs :=
  [ { ipfsHash := "QmTest1", contentType := .TEXT, timestamp := 100, publisher := 1,
      tags := ["tech", "chain"] },
    { ipfsHash := "QmTest2", contentType := .IMAGE, timestamp := 200, publisher := 2,
      tags := ["tech", "ai"] },
    { ipfsHash := "QmTest3", contentType := .VIDEO, timestamp := 300, publisher := 1,
      tags := ["chain"] } ]

/-- C4: after any sequence of `n` successful `createPost` calls from the
fresh contract, `getTotalPosts` is `n`; `getPost i` succeeds for every `i`
in `[1, n]` and returns the post created by the `i`-th call; `getPost i`
reverts with the invalid-id error for every `i` outside `[1, n]` (including
`0`); and `postExists i` is true exactly for `i` in `[1, n]`. -/
theorem c4_contiguous_ids (calls : List CallArgs) (h : allOk .init calls = true) :
    getTotalPosts (execAll .init calls) = calls.length ∧
    (∀ i, 1 ≤ i → i ≤ calls.length →
      ∃ a, calls.get? (i - 1) = some a ∧
        getPost (execAll .init calls) i = .ok (mkPost i a)) ∧
    (∀ i, ¬(1 ≤ i ∧ i ≤ calls.length) →
      getPost (execAll .init calls) i = .error "Invalid post ID") ∧
    (∀ i, postExists (execAll .init calls) i = true ↔ 1 ≤ i ∧ i ≤ calls.length) := by
  rcases execAll_ok_spec calls .init h with ⟨h1, _h2, h3⟩
  have hcnt : (execAll .init calls).postCounter = calls.length := by
    simpa [ContractState.init] using h1
  refine ⟨hcnt, ?_, ?_, ?_⟩
  · intro i hi1 hi2
    have hlt : i - 1 < calls.length := by omega
    rcases List.get?_eq_get hlt with hget
    refine ⟨calls.get ⟨i - 1, hlt⟩, hget, ?_⟩
    have hp := h3 (i - 1) _ hget
    have hidx : ContractState.init.postCounter + (i - 1) + 1 = i := by
      simp [ContractState.init]; omega
    rw [hidx] at hp
    simp only [getPost, hcnt]
    rw [if_pos ⟨by omega, hi2⟩, hp]
  · intro i hi
    simp only [getPost, hcnt]
    rw [if_neg (by omega)]
  · intro i
    simp [postExists, hcnt]
    omega

/-- C4, witness: the theorem applied to the concrete three-call scenario
`wCalls`; the total is 3 and post 2 is the second call's record. -/
theorem c4_contiguous_ids_witness :
    getTotalPosts (execAll .init wCalls) = wCalls.length ∧
    postExists (execAll .init wCalls) 4 = false := by
  have h := c4_contiguous_ids wCalls (by decide)
  refine ⟨h.1, ?_⟩
  have h4 := (h.2.2.2 4)
  have : ¬(1 ≤ 4 ∧ 4 ≤ wCalls.length) := by decide
  cases hpe : postExists (execAll .init wCalls) 4
  · rfl
  · exact absurd (h4.mp hpe) this


/-- C7: `getLatestPosts` reverts exactly on count `0` (a `uint256` count
cannot be negative, so `count <= 0` means `count = 0`); for a positive
count it returns `min(count, N)` posts, newest first: element `j` is the
post with id `N - j`, i.e. the post created by call `N - j`. -/
theorem c7_getLatest (calls : List CallArgs) (c : Nat) (h : allOk .init calls = true) :
    getLatestPosts (execAll .init calls) 0 = .error "Count must be greater than 0" ∧
    (1 ≤ c →
      ∃ l, getLatestPosts (execAll .init calls) c = .ok l ∧
        l.length = min c calls.length ∧
        ∀ j, j < l.length →
          ∃ x, calls.get? (calls.length - 1 - j) = some x ∧
            l.get? j = some (mkPost (calls.length - j) x)) := by
  rcases execAll_ok_spec calls .init h with ⟨h1, _h2, h3⟩
  have hcnt : (execAll .init calls).postCounter = calls.length := by
    simpa [ContractState.init] using h1
  constructor
  · simp [getLatestPosts]
  · intro hc
    have hcne : c ≠ 0 := by omega
    have hl : getLatestPosts (execAll .init calls) c =
        .ok ((List.range (if (execAll .init calls).postCounter < c
              then (execAll .init calls).postCounter else c)).map
          (fun i => (execAll .init calls).posts ((execAll .init calls).postCounter - i))) := by
      simp only [getLatestPosts, hcne, if_false]
    refine ⟨_, hl, ?_, ?_⟩
    · simp only [List.length_map, List.length_range, hcnt]
      rcases Nat.lt_or_ge calls.length c with hlt | hge
      · rw [if_pos hlt]; omega
      · rw [if_neg (by omega)]; omega
    · intro j hj
      simp only [List.length_map, List.length_range, hcnt] at hj
      have hjN : j < calls.length := by
        rcases Nat.lt_or_ge calls.length c with hlt | hge
        · rwa [if_pos hlt] at hj
        · rw [if_neg (by omega)] at hj; omega
      have hk : calls.length - 1 - j < calls.length := by omega
      rcases List.get?_eq_get hk with hget
      refine ⟨calls.get ⟨calls.length - 1 - j, hk⟩, hget, ?_⟩
      have hp := h3 (calls.length - 1 - j) _ hget
      have hidx : ContractState.init.postCounter + (calls.length - 1 - j) + 1 =
          calls.length - j := by
        simp [ContractState.init]; omega
      rw [hidx] at hp
      have hj' : j < if (execAll .init calls).postCounter < c
          then (execAll .init calls).postCounter else c := by
        rw [hcnt]; exact hj
      rw [List.get?_map, List.get?_range hj', Option.map_some']
      rw [hcnt, hp]

/-- C7, witness: the theorem applied to the three-call scenario with a count
of 5, which exceeds the total of 3: the call succeeds and returns all 3
posts. -/
theorem c7_getLatest_witness :
    getLatestPosts (execAll .init wCalls) 0 = .error "Count must be greater than 0" ∧
    ∃ l, getLatestPosts (execAll .init wCalls) 5 = .ok l ∧ l.length = min 5 wCalls.length := by
  have h := c7_getLatest wCalls 5 (by decide)
  rcases h.2 (by decide) with ⟨l, hl, hlen, _⟩
  exact ⟨h.1, l, hl, hlen⟩

/-- C9: `getPostsInRange` reverts exactly when the range is empty
(`endId < startId`) or not contained in `[1, N]`; on success it returns the
posts with ids `startId .. endId` in ascending id order — element `j` is
the post created by call `startId + j`. -/
theorem c9_getRange (calls : List CallArgs) (a b : Nat) (h : allOk .init calls = true) :
    ((∃ e, getPostsInRange (execAll .init calls) a b = .error e) ↔
      b < a ∨ a = 0 ∨ calls.length < b) ∧
    (∀ l, getPostsInRange (execAll .init calls) a b = .ok l →
      l.length = b - a + 1 ∧
      ∀ j, j < l.length →
        ∃ x, calls.get? (a + j - 1) = some x ∧ l.get? j = some (mkPost (a + j) x)) := by
  rcases execAll_ok_spec calls .init h with ⟨h1, _h2, h3⟩
  have hcnt : (execAll .init calls).postCounter = calls.length := by
    simpa [ContractState.init] using h1
  constructor
  · by_cases hs : 0 < a ∧ a ≤ (execAll .init calls).postCounter
    · by_cases he : a ≤ b ∧ b ≤ (execAll .init calls).postCounter
      · simp only [getPostsInRange, if_neg (not_not_intro hs), if_neg (not_not_intro he)]
        rw [hcnt] at hs he
        constructor
        · rintro ⟨e, he'⟩; cases he'
        · intro hor; omega
      · simp only [getPostsInRange, if_neg (not_not_intro hs), if_pos he]
        rw [hcnt] at hs he
        constructor
        · intro _; omega
        · intro _; exact ⟨_, rfl⟩
    · simp only [getPostsInRange, if_pos hs]
      rw [hcnt] at hs
      constructor
      · intro _; omega
      · intro _; exact ⟨_, rfl⟩
  · intro l hl
    by_cases hs : 0 < a ∧ a ≤ (execAll .init calls).postCounter
    · by_cases he : a ≤ b ∧ b ≤ (execAll .init calls).postCounter
      · rw [getPostsInRange, if_neg (not_not_intro hs), if_neg (not_not_intro he)] at hl
        rw [hcnt] at hs he
        cases hl
        refine ⟨by simp, ?_⟩
        intro j hj
        simp only [List.length_map, List.length_range] at hj
        have hk : a + j - 1 < calls.length := by omega
        rcases List.get?_eq_get hk with hget
        refine ⟨calls.get ⟨a + j - 1, hk⟩, hget, ?_⟩
        have hp := h3 (a + j - 1) _ hget
        have hidx : ContractState.init.postCounter + (a + j - 1) + 1 = a + j := by
          simp [ContractState.init]; omega
        rw [hidx] at hp
        rw [List.get?_map, List.get?_range hj, Option.map_some']
        rw [hp]
      · rw [getPostsInRange, if_neg (not_not_intro hs), if_pos he] at hl; cases hl
    · rw [getPostsInRange, if_pos hs] at hl; cases hl

/-- C9, witness: the theorem applied to the three-call scenario: the range
`[2, 3]` succeeds with two posts, and the inverted range `[3, 2]` reverts. -/
theorem c9_getRange_witness :
    (∃ l, getPostsInRange (execAll .init wCalls) 2 3 = .ok l ∧ l.length = 2) ∧
    (∃ e, getPostsInRange (execAll .init wCalls) 3 2 = .error e) := by
  constructor
  · have h := c9_getRange wCalls 2 3 (by decide)
    cases hr : getPostsInRange (execAll .init wCalls) 2 3 with
    | error e => exact absurd (h.1.mp ⟨e, hr⟩) (by decide)
    | ok l => exact ⟨l, rfl, (h.2 l hr).1⟩
  · exact (c9_getRange wCalls 3 2 (by decide)).1.mpr (by decide)

/-! ### The tag-index coherence invariant -/

lemma mem_range1 {s n m : Nat} : m ∈ List.range' s n ↔ s ≤ m ∧ m < s + n := by
  rw [List.mem_range']
  constructor
  · rintro ⟨i, hi, rfl⟩; omega
  · intro hm; exact ⟨m - s, by omega, by omega⟩

lemma pairwise_lt_range1 : ∀ n s, List.Pairwise (· < ·) (List.range' s n) := by
  intro n
  induction n with
  | zero => intro s; simp
  | succ n ih =>
    intro s
    rw [List.range'_succ]
    refine List.Pairwise.cons ?_ (ih (s + 1))
    intro b hb
    have := (mem_range1.mp hb).1
    omega

/-- Tag-index coherence: every tag's index list is the ascending list of
ids of the posts whose tag list contains it. -/
def TagInv (s : ContractState) : Prop :=
  ∀ q, s.tagToPosts q =
    (List.range' 1 s.postCounter).filter (fun i => decide (q ∈ (s.posts i).tags))

lemma tagInv_init : TagInv .init := by
  intro q
  simp [ContractState.init]

/-- One successful `createPost` with a duplicate-free tag list preserves
tag-index coherence. -/
lemma tagInv_step (s : ContractState) (a : CallArgs) (s' : ContractState)
    (hnd : a.tags.Nodup) (h : createPost s a = .ok s') (hinv : TagInv s) :
    TagInv s' := by
  intro q
  rcases createPost_ok_spec s a s' h with ⟨hcnt, hposts⟩
  have htag := createPost_ok_tagToPosts s a s' hnd h q
  rw [htag, hinv q, hcnt, List.range'_1_concat, List.filter_append]
  congr 1
  · apply List.filter_congr
    intro i hi
    have hiN := (mem_range1.mp hi).2
    rw [hposts i, if_neg (by omega)]
  · have hpN : s'.posts (1 + s.postCounter) = mkPost (s.postCounter + 1) a := by
      rw [hposts, if_pos (by omega)]
    have h1N : 1 + s.postCounter = s.postCounter + 1 := by omega
    rw [List.filter_singleton, hpN]
    by_cases hq : q ∈ a.tags
    · have : q ∈ (mkPost (s.postCounter + 1) a).tags := hq
      simp [hq, this, h1N]
    · have : q ∉ (mkPost (s.postCounter + 1) a).tags := hq
      simp [hq, this]

/-- Tag-index coherence holds after any successful sequence of calls whose
tag lists are duplicate-free. -/
lemma execAll_tagInv (calls : List CallArgs) :
    ∀ s0, allOk s0 calls = true → (∀ c ∈ calls, c.tags.Nodup) → TagInv s0 →
      TagInv (execAll s0 calls) := by
  induction calls with
  | nil => intro s0 _ _ hi; exact hi
  | cons c rest ih =>
    intro s0 hok hnd hi
    simp only [allOk, Bool.and_eq_true] at hok
    rcases hok with ⟨hc, hrest⟩
    rcases (isOkB_true_iff _).mp hc with ⟨s1, hs1⟩
    have hstep : step s0 c = s1 := step_of_ok hs1
    have hex : execAll s0 (c :: rest) = execAll s1 rest := by simp [execAll, hstep]
    rw [hex]
    rw [hstep] at hrest
    exact ih s1 hrest (fun x hx => hnd x (List.mem_cons_of_mem _ hx))
      (tagInv_step s0 c s1 (hnd c (List.mem_cons_self _ _)) hs1 hi)

/-- In a reachable state, the post stored at id `i ∈ [1, N]` carries id `i`. -/
lemma execAll_post_id (calls : List CallArgs) (h : allOk .init calls = true) :
    ∀ i, 1 ≤ i → i ≤ (execAll .init calls).postCounter →
      ((execAll .init calls).posts i).id = i := by
  rcases execAll_ok_spec calls .init h with ⟨h1, _h2, h3⟩
  have hcnt : (execAll .init calls).postCounter = calls.length := by
    simpa [ContractState.init] using h1
  intro i hi1 hi2
  rw [hcnt] at hi2
  have hk : i - 1 < calls.length := by omega
  rcases List.get?_eq_get hk with hget
  have hp := h3 (i - 1) _ hget
  have hidx : ContractState.init.postCounter + (i - 1) + 1 = i := by
    simp [ContractState.init]; omega
  rw [hidx] at hp
  rw [hp]
  rfl

/-- A call that passes the same tag twice: the contract validates each
occurrence separately and pushes the post id once per occurrence. -/
def c3DupArgs : CallArgs :=
  { ipfsHash := "QmDup", contentType := .TEXT, timestamp := 0, publisher := 0,
    tags := ["a", "a"] }

/-- C3, counterexample: a single successful `createPost` whose tag list
repeats `"a"` produces the index list `[1, 1]` — the post id appears twice
— and `getPostCountByTag "a"` reports `2` although only one post carries
the tag.  The contract does not deduplicate tags within one call, so the
claimed invariant fails on duplicate-tag calls. -/
theorem c3_counterexample :
    allOk .init [c3DupArgs] = true ∧
    (execAll .init [c3DupArgs]).tagToPosts "a" = [1, 1] ∧
    ¬((execAll .init [c3DupArgs]).tagToPosts "a").Nodup ∧
    getPostCountByTag (execAll .init [c3DupArgs]) "a" = 2 ∧
    ((List.range' 1 (execAll .init [c3DupArgs]).postCounter).filter
      (fun i => decide ("a" ∈ ((execAll .init [c3DupArgs]).posts i).tags))).length = 1 := by
  refine ⟨by decide, by decide, by decide, by decide, by decide⟩

/-- C3 (amended): after any sequence of successful `createPost` calls in
which every call's tag list is duplicate-free — as the specification's data
model requires of a Post's tags — the index list of every tag `t` is
exactly the ascending, duplicate-free list of ids of the posts whose tags
contain `t`, and `getPostCountByTag t` is its length (`0` for an unknown
tag).  With a duplicated tag in one call, the id is pushed once per
occurrence instead. -/
theorem c3_tagIndex_amended (calls : List CallArgs) (h : allOk .init calls = true)
    (hnd : ∀ c ∈ calls, c.tags.Nodup) (t : String) :
    (execAll .init calls).tagToPosts t =
      (List.range' 1 (execAll .init calls).postCounter).filter
        (fun i => decide (t ∈ ((execAll .init calls).posts i).tags)) ∧
    List.Pairwise (· < ·) ((execAll .init calls).tagToPosts t) ∧
    ((execAll .init calls).tagToPosts t).Nodup ∧
    getPostCountByTag (execAll .init calls) t =
      ((List.range' 1 (execAll .init calls).postCounter).filter
        (fun i => decide (t ∈ ((execAll .init calls).posts i).tags))).length := by
  have hinv := execAll_tagInv calls .init h hnd tagInv_init t
  have hpw : List.Pairwise (· < ·) ((execAll .init calls).tagToPosts t) := by
    rw [hinv]
    exact (pairwise_lt_range1 _ _).filter _
  refine ⟨hinv, hpw, hpw.imp (fun hlt => Nat.ne_of_lt hlt), ?_⟩
  rw [getPostCountByTag, hinv]

/-- C3, witness: the amended theorem applied to the three-call scenario
`wCalls` and the tag `"tech"`. -/
theorem c3_tagIndex_amended_witness :
    (execAll .init wCalls).tagToPosts "tech" =
      (List.range' 1 (execAll .init wCalls).postCounter).filter
        (fun i => decide ("tech" ∈ ((execAll .init wCalls).posts i).tags)) :=
  (c3_tagIndex_amended wCalls (by decide) (by decide) "tech").1

/-- C8, counterexample: in the reachable state created by the single
successful call `createPost("QmDup", TEXT, ["a","a"])`, the index list for
`"a"` is `[1, 1]`, so `getPostsByTag "a"` returns the one post carrying
`"a"` twice — a sequence with a repeated element is not "all posts carrying
the tag in ascending creation order" (which lists each such post once).
The claim's "for every ledger state" therefore fails on duplicate-tag
states. -/
theorem c8_counterexample :
    allOk .init [c3DupArgs] = true ∧
    (getPostsByTag (execAll .init [c3DupArgs]) "a").map Post.id = [1, 1] ∧
    ¬(getPostsByTag (execAll .init [c3DupArgs]) "a").Nodup ∧
    ((List.range' 1 (execAll .init [c3DupArgs]).postCounter).filter
      (fun i => decide ("a" ∈ ((execAll .init [c3DupArgs]).posts i).tags))).length = 1 :=
  ⟨by decide, by decide, by decide, by decide⟩

/-- C8 (amended): `getPostsByTag` never reverts (it is a total function of
the state) and returns the empty sequence for a tag no post carries; in
every state reachable by calls whose tag lists are duplicate-free — the
specification's data-model requirement on a Post's tags — it returns
exactly the posts whose tag list contains `t`, one post per id in
ascending creation order.  When a call repeats a tag, the post is returned
once per occurrence instead (see the counterexample). -/
theorem c8_getPostsByTag (calls : List CallArgs) (h : allOk .init calls = true)
    (hnd : ∀ c ∈ calls, c.tags.Nodup) (t : String) :
    getPostsByTag (execAll .init calls) t =
      ((List.range' 1 (execAll .init calls).postCounter).filter
        (fun i => decide (t ∈ ((execAll .init calls).posts i).tags))).map
        (execAll .init calls).posts ∧
    List.Pairwise (fun p p' => p.id < p'.id) (getPostsByTag (execAll .init calls) t) ∧
    ((∀ i, 1 ≤ i → i ≤ (execAll .init calls).postCounter →
        t ∉ ((execAll .init calls).posts i).tags) →
      getPostsByTag (execAll .init calls) t = []) := by
  have hinv := execAll_tagInv calls .init h hnd tagInv_init t
  have hmain : getPostsByTag (execAll .init calls) t =
      ((List.range' 1 (execAll .init calls).postCounter).filter
        (fun i => decide (t ∈ ((execAll .init calls).posts i).tags))).map
        (execAll .init calls).posts := by
    rw [getPostsByTag, hinv]
  refine ⟨hmain, ?_, ?_⟩
  · rw [hmain, List.pairwise_map]
    have hpw : List.Pairwise (· < ·)
        ((List.range' 1 (execAll .init calls).postCounter).filter
          (fun i => decide (t ∈ ((execAll .init calls).posts i).tags))) :=
      (pairwise_lt_range1 _ _).filter _
    refine hpw.imp_of_mem ?_
    intro i j hi hj hij
    have hi' := mem_range1.mp (List.mem_of_mem_filter hi)
    have hj' := mem_range1.mp (List.mem_of_mem_filter hj)
    have hidi := execAll_post_id calls h i hi'.1 (by omega)
    have hidj := execAll_post_id calls h j hj'.1 (by omega)
    rw [hidi, hidj]
    exact hij
  · intro hnone
    rw [hmain]
    have : (List.range' 1 (execAll .init calls).postCounter).filter
        (fun i => decide (t ∈ ((execAll .init calls).posts i).tags)) = [] := by
      rw [List.filter_eq_nil_iff]
      intro i hi
      rcases mem_range1.mp hi with ⟨hi1, hi2⟩
      simp only [decide_eq_true_eq]
      exact hnone i hi1 (by omega)
    rw [this]
    rfl

/-- C8, witness: the amended theorem applied to the three-call scenario and
the tag `"tech"`, which is carried by posts 1 and 2. -/
theorem c8_getPostsByTag_witness :
    getPostsByTag (execAll .init wCalls) "tech" =
      ((List.range' 1 (execAll .init wCalls).postCounter).filter
        (fun i => decide ("tech" ∈ ((execAll .init wCalls).posts i).tags))).map
        (execAll .init wCalls).posts :=
  (c8_getPostsByTag wCalls (by decide) (by decide) "tech").1

/-! ### The exchange sort of `getTopTags` -/

lemma pass_length : ∀ (l : List (String × Nat)) (v), ((innerPass v l).2).length = l.length := by
  intro l
  induction l with
  | nil => intro v; rfl
  | cons x xs ih =>
    intro v
    by_cases hvx : v.2 < x.2
    · simp only [innerPass, if_pos hvx, List.length_cons, ih]
    · simp only [innerPass, if_neg hvx, List.length_cons, ih]

lemma pass_perm : ∀ (l : List (String × Nat)) (v),
    ((innerPass v l).1 :: (innerPass v l).2).Perm (v :: l) := by
  intro l
  induction l with
  | nil => intro v; exact .refl _
  | cons x xs ih =>
    intro v
    by_cases hvx : v.2 < x.2
    · simp only [innerPass, if_pos hvx]
      exact (List.Perm.swap v _ _).trans ((ih x).cons v)
    · simp only [innerPass, if_neg hvx]
      exact (List.Perm.swap x _ _).trans (((ih v).cons x).trans (List.Perm.swap v x xs))

lemma pass_le : ∀ (l : List (String × Nat)) (v),
    v.2 ≤ (innerPass v l).1.2 ∧ ∀ y ∈ (innerPass v l).2, y.2 ≤ (innerPass v l).1.2 := by
  intro l
  induction l with
  | nil => intro v; exact ⟨Nat.le_refl _, by simp [innerPass]⟩
  | cons x xs ih =>
    intro v
    by_cases hvx : v.2 < x.2
    · rcases ih x with ⟨h1, h2⟩
      simp only [innerPass, if_pos hvx]
      refine ⟨by omega, ?_⟩
      intro y hy
      rcases List.mem_cons.mp hy with rfl | hy'
      · omega
      · exact h2 y hy'
    · rcases ih v with ⟨h1, h2⟩
      simp only [innerPass, if_neg hvx]
      refine ⟨h1, ?_⟩
      intro y hy
      rcases List.mem_cons.mp hy with rfl | hy'
      · omega
      · exact h2 y hy'

/-- The exchange sort returns a permutation of its input, sorted by
descending count. -/
lemma exchSortFuel_spec : ∀ n (l : List (String × Nat)), l.length ≤ n →
    (exchSortFuel n l).Perm l ∧
    List.Pairwise (fun x y : String × Nat => y.2 ≤ x.2) (exchSortFuel n l) := by
  intro n
  induction n with
  | zero =>
    intro l hl
    have : l = [] := List.length_eq_zero.mp (Nat.le_zero.mp hl)
    subst this
    exact ⟨.refl _, .nil⟩
  | succ n ih =>
    intro l hl
    cases l with
    | nil => exact ⟨.refl _, .nil⟩
    | cons x xs =>
      simp only [exchSortFuel]
      have hlen : ((innerPass x xs).2).length ≤ n := by
        rw [pass_length]
        simpa using Nat.lt_succ_iff.mp (Nat.lt_of_lt_of_le (Nat.lt_succ_self _) hl)
      rcases ih _ hlen with ⟨hperm, hsorted⟩
      constructor
      · exact (hperm.cons _).trans (pass_perm xs x)
      · refine List.Pairwise.cons ?_ hsorted
        intro y hy
        have hyp : y ∈ (innerPass x xs).2 := hperm.mem_iff.mp hy
        exact (pass_le xs x).2 y hyp

/-- The registry of tag/count pairs over which `getTopTags` sorts: the
zipped `tempTags` / `tempCounts` arrays, in Tag Registry (first-seen)
order. -/
def registryPairs (s : ContractState) : List (String × Nat) :=
  s.allTags.map (fun t => (t, (s.tagToPosts t).length))

/-- Three successful calls building registry order `a, b, c` (first-seen)
with post-counts `a ↦ 2`, `b ↦ 2`, `c ↦ 3`. -/
def c1Calls : List CallArgs :=
  [ { ipfsHash := "h1", contentType := .TEXT, timestamp := 0, publisher := 0,
      tags := ["a", "b", "c"] },
    { ipfsHash := "h2", contentType := .TEXT, timestamp := 0, publisher := 0,
      tags := ["a", "b", "c"] },
    { ipfsHash := "h3", contentType := .TEXT, timestamp := 0, publisher := 0,
      tags := ["c"] } ]

/-- C1, counterexample: after `c1Calls` the Tag Registry is `[a, b, c]` in
first-seen order, with counts `2, 2, 3`.  A stable descending sort that
breaks the tie between `a` and `b` by first-seen order must return
`[(c,3), (a,2), (b,2)]`, but the contract's exchange sort moves `b` in
front of `a` and `getTopTags(3)` returns `[(c,3), (b,2), (a,2)]`: the tie
between equal counts is broken in reverse first-seen order here, so the
claimed stable tie-break is false. -/
theorem c1_counterexample :
    allOk .init c1Calls = true ∧
    getAllTags (execAll .init c1Calls) = ["a", "b", "c"] ∧
    getPostCountByTag (execAll .init c1Calls) "a" = 2 ∧
    getPostCountByTag (execAll .init c1Calls) "b" = 2 ∧
    getPostCountByTag (execAll .init c1Calls) "c" = 3 ∧
    getTopTags (execAll .init c1Calls) 3 = .ok [("c", 3), ("b", 2), ("a", 2)] ∧
    ([("c", 3), ("b", 2), ("a", 2)] : List (String × Nat)) ≠ [("c", 3), ("a", 2), ("b", 2)] :=
  ⟨by decide, by decide, by decide, by decide, by decide, rfl, by decide⟩

/-- C1 (amended): `getTopTags` reverts exactly on count `0` (`count <= 0`
for a `uint256`); otherwise it returns the first `min(count, distinct-tag
count)` pairs of a descending-by-count reordering of the registry's
`(tag, post-count)` pairs — in particular, when `count` is at least the
number of distinct tags, the result is a permutation of all registered
pairs.  The order among equal counts is whatever the contract's exchange
sort produces; it is not in general the registry's first-seen order. -/
theorem c1_topTags_amended (s : ContractState) (c : Nat) :
    getTopTags s 0 = .error "Count must be greater than 0" ∧
    (c ≠ 0 → ∃ r, getTopTags s c = .ok r) ∧
    (∀ r, getTopTags s c = .ok r →
      r.length = min c s.allTags.length ∧
      List.Pairwise (fun x y : String × Nat => y.2 ≤ x.2) r ∧
      (∃ full, full.Perm (registryPairs s) ∧
        List.Pairwise (fun x y : String × Nat => y.2 ≤ x.2) full ∧
        r = full.take (min c s.allTags.length)) ∧
      (s.allTags.length ≤ c → r.Perm (registryPairs s))) := by
  refine ⟨rfl, ?_, ?_⟩
  · intro hc
    refine ⟨(exchSort (s.allTags.map (fun t => (t, (s.tagToPosts t).length)))).take
      (if s.allTags.length < c then s.allTags.length else c), ?_⟩
    simp only [getTopTags, hc, if_false]
  · intro r hr
    by_cases hc : c = 0
    · subst hc
      simp [getTopTags] at hr
    · simp only [getTopTags, hc, if_false] at hr
      have hrdef : (exchSort (s.allTags.map (fun t => (t, (s.tagToPosts t).length)))).take
          (if s.allTags.length < c then s.allTags.length else c) = r := by
        exact Except.ok.inj hr
      rcases exchSortFuel_spec (s.allTags.map (fun t => (t, (s.tagToPosts t).length))).length
          (s.allTags.map (fun t => (t, (s.tagToPosts t).length))) (Nat.le_refl _) with
        ⟨hperm, hsorted⟩
      have hfull : (exchSort (s.allTags.map (fun t => (t, (s.tagToPosts t).length)))).length =
          s.allTags.length := by
        rw [exchSort]
        rw [hperm.length_eq, List.length_map]
      have hmin : (if s.allTags.length < c then s.allTags.length else c) =
          min c s.allTags.length := by
        rcases Nat.lt_or_ge s.allTags.length c with hlt | hge
        · rw [if_pos hlt]; omega
        · rw [if_neg (by omega)]; omega
      rw [hmin] at hrdef
      refine ⟨?_, ?_, ?_, ?_⟩
      · rw [← hrdef, List.length_take, hfull]
        omega
      · rw [← hrdef]
        exact List.Pairwise.sublist (List.take_sublist _ _) hsorted
      · exact ⟨exchSort (s.allTags.map (fun t => (t, (s.tagToPosts t).length))),
          hperm, hsorted, hrdef.symm⟩
      · intro hle
        have : min c s.allTags.length = s.allTags.length := by omega
        rw [this] at hrdef
        rw [← hrdef, List.take_of_length_le (by rw [hfull])]
        exact hperm

/-- C1, witness: the amended theorem applied at the reachable state after
`c1Calls` with count 2; the returned prefix has length `min 2 3 = 2`. -/
theorem c1_topTags_amended_witness :
    ([(("c" : String), (3 : Nat)), ("b", 2)] : List (String × Nat)).length =
      min 2 (execAll .init c1Calls).allTags.length :=
  ((c1_topTags_amended (execAll .init c1Calls) 2).2.2 [("c", 3), ("b", 2)] rfl).1

/-! ### The tag extractors -/

/-- No `#` in the text is immediately followed by a class character: the
tag regex has no match anywhere. -/
def hashClean (cls : Char → Bool) : List Char → Bool
  | [] => true
  | [_] => true
  | c :: d :: rest => (!(decide (c = '#') && cls d)) && hashClean cls (d :: rest)

/-- No two adjacent `#` characters in the text. -/
def noAdjHash : List Char → Bool
  | [] => true
  | [_] => true
  | c :: d :: rest => (!(decide (c = '#') && decide (d = '#'))) && noAdjHash (d :: rest)

lemma hashClean_cons_ne (cls : Char → Bool) (c : Char) (l : List Char) (hc : c ≠ '#') :
    hashClean cls (c :: l) = hashClean cls l := by
  cases l with
  | nil => rfl
  | cons d rest => simp [hashClean, hc]

lemma hashClean_hash_cons (cls : Char → Bool) (l : List Char) :
    hashClean cls ('#' :: l) = true ↔
      (∀ d, l.head? = some d → cls d = false) ∧ hashClean cls l = true := by
  cases l with
  | nil => simp [hashClean]
  | cons d rest => simp [hashClean]

lemma noAdjHash_tail {c : Char} {rest : List Char} (h : noAdjHash (c :: rest) = true) :
    noAdjHash rest = true := by
  cases rest with
  | nil => rfl
  | cons d r2 =>
    simp only [noAdjHash, Bool.and_eq_true] at h
    exact h.2

lemma noAdjHash_pair {rest : List Char} (h : noAdjHash ('#' :: rest) = true) :
    rest.head? ≠ some '#' := by
  cases rest with
  | nil => simp
  | cons d r2 =>
    intro hd
    have hd' : d = '#' := by injection hd
    subst hd'
    simp [noAdjHash] at h

/-- On a match-free text the scanner finds nothing. -/
lemma scanGo_clean (cls : Char → Bool) : ∀ l, hashClean cls l = true →
    scanGo cls .out l = [] ∧
    ((∀ d, l.head? = some d → cls d = false) → scanGo cls .hash l = []) := by
  intro l
  induction l with
  | nil => intro _; exact ⟨rfl, fun _ => rfl⟩
  | cons c rest ih =>
    intro hcl
    have hrest : hashClean cls rest = true := by
      by_cases hc : c = '#'
      · subst hc; exact ((hashClean_hash_cons cls rest).mp hcl).2
      · rwa [hashClean_cons_ne cls c _ hc] at hcl
    constructor
    · by_cases hc : c = '#'
      · subst hc
        have hhd := ((hashClean_hash_cons cls rest).mp hcl).1
        simp only [scanGo, if_pos rfl]
        exact (ih hrest).2 hhd
      · simp only [scanGo, if_neg hc]
        exact (ih hrest).1
    · intro hhd
      have hcd : cls c = false := hhd c rfl
      by_cases hc : c = '#'
      · subst hc
        have hhd2 := ((hashClean_hash_cons cls rest).mp hcl).1
        simp only [scanGo, hcd, Bool.false_eq_true, if_false, if_pos rfl]
        exact (ih hrest).2 hhd2
      · simp only [scanGo, hcd, Bool.false_eq_true, if_false, if_neg hc]
        exact (ih hrest).1

/-- Marker removal on a text without adjacent `#` yields a match-free
text. -/
lemma rmGo_clean (cls : Char → Bool) (hcls : cls '#' = false) :
    ∀ l, noAdjHash l = true →
      hashClean cls (rmGo cls .out l) = true ∧
      hashClean cls (rmGo cls .run l) = true ∧
      (l.head? ≠ some '#' → hashClean cls (rmGo cls .hash l) = true) := by
  intro l
  induction l with
  | nil => exact fun _ => ⟨rfl, rfl, fun _ => rfl⟩
  | cons c rest ih =>
    intro hna
    have hnar : noAdjHash rest = true := noAdjHash_tail hna
    rcases ih hnar with ⟨ihOut, ihRun, ihHash⟩
    have hpair : c = '#' → rest.head? ≠ some '#' := by
      intro hc; subst hc; exact noAdjHash_pair hna
    refine ⟨?_, ?_, ?_⟩
    · by_cases hc : c = '#'
      · subst hc
        simp only [rmGo, if_pos rfl]
        exact ihHash (hpair rfl)
      · simp only [rmGo, if_neg hc]
        rw [hashClean_cons_ne cls c _ hc]
        exact ihOut
    · by_cases hcc : cls c = true
      · have hc : c ≠ '#' := by
          intro h; rw [h, hcls] at hcc; cases hcc
        simp only [rmGo, hcc, if_true]
        rw [hashClean_cons_ne cls c _ hc]
        exact ihRun
      · rw [Bool.not_eq_true] at hcc
        by_cases hc : c = '#'
        · subst hc
          simp only [rmGo, hcc, Bool.false_eq_true, if_false, if_pos rfl]
          exact ihHash (hpair rfl)
        · simp only [rmGo, hcc, Bool.false_eq_true, if_false, if_neg hc]
          rw [hashClean_cons_ne cls c _ hc]
          exact ihOut
    · intro hh
      have hc : c ≠ '#' := by
        intro h; subst h; exact hh rfl
      by_cases hcc : cls c = true
      · simp only [rmGo, hcc, if_true]
        rw [hashClean_cons_ne cls c _ hc]
        exact ihRun
      · rw [Bool.not_eq_true] at hcc
        simp only [rmGo, hcc, Bool.false_eq_true, if_false, if_neg hc]
        refine (hashClean_hash_cons cls _).mpr ⟨?_, ?_⟩
        · intro d hd
          have hcd : c = d := by injection hd
          rw [← hcd, hcc]
        · rw [hashClean_cons_ne cls c _ hc]
          exact ihOut

/-- C5, counterexample: on `"##abc"` the frontend `removeTagMarkers`
replaces the match `"#abc"` (found at index 1) by `"abc"`, producing
`"#abc"` — and extracting tags from that output yields `["abc"]`, not the
empty sequence, because removing the matched `#` exposed the preceding `#`
to the following run. -/
theorem c5_counterexample :
    removeTagMarkersTs "##abc" = "#abc" ∧
    extractTagsTs (removeTagMarkersTs "##abc") = ["abc"] ∧
    (["abc"] : List String) ≠ [] :=
  ⟨rfl, rfl, by decide⟩

/-- C5 (amended): the Tag Extractor is a pure function, so running it twice
on the same text yields the same ordered tag sequence; and on every text
with no two adjacent `#` characters, extracting tags from the
`removeTagMarkers` output yields no tags.  (With adjacent `#`s, removing a
matched marker can expose the previous `#` to the following run and create
a fresh match, as the counterexample shows.) -/
theorem c5_extractor_amended (text : String) :
    extractTagsTs text = extractTagsTs text ∧
    (noAdjHash text.data = true → extractTagsTs (removeTagMarkersTs text) = []) := by
  refine ⟨rfl, fun h => ?_⟩
  have hclean := (rmGo_clean jsTagChar (by decide) text.data h).1
  have hscan := (scanGo_clean jsTagChar _ hclean).1
  rw [extractTagsTs, removeTagMarkersTs]
  have hdata : (String.mk (rmGo jsTagChar .out text.data)).data =
      rmGo jsTagChar .out text.data := rfl
  rw [hdata, tagMatches, hscan]
  rfl

/-- C5, witness: the amended theorem applied to a concrete text with
English and CJK tags and no adjacent `#`s. -/
theorem c5_extractor_amended_witness :
    extractTagsTs (removeTagMarkersTs "see #lean and #数学") = [] :=
  (c5_extractor_amended "see #lean and #数学").2 (by decide)

/-- Inside a run, the scanner emits the accumulated characters followed by
the maximal class prefix of the remainder, then resumes at the first
non-class character. -/
lemma scanGo_run_eq (cls : Char → Bool) :
    ∀ l acc, scanGo cls (.run acc) l =
      (acc.reverse ++ l.takeWhile cls) :: scanGo cls .out (l.dropWhile cls) := by
  intro l
  induction l with
  | nil =>
    intro acc
    simp [scanGo, List.takeWhile, List.dropWhile]
  | cons c rest ih =>
    intro acc
    by_cases hcc : cls c = true
    · rw [List.takeWhile_cons_of_pos hcc, List.dropWhile_cons_of_pos hcc]
      simp only [scanGo, hcc, if_true]
      rw [ih (c :: acc)]
      simp
    · rw [List.takeWhile_cons_of_neg hcc, List.dropWhile_cons_of_neg hcc]
      rw [Bool.not_eq_true] at hcc
      simp only [scanGo, hcc, Bool.false_eq_true, if_false, List.append_nil]

lemma mem_takeWhile_cls (p : Char → Bool) :
    ∀ (l : List Char) (a), a ∈ l.takeWhile p → p a = true := by
  intro l
  induction l with
  | nil => intro a h; simp [List.takeWhile] at h
  | cons x xs ih =>
    intro a h
    by_cases hx : p x
    · rw [List.takeWhile_cons_of_pos hx] at h
      rcases List.mem_cons.mp h with rfl | h2
      · exact hx
      · exact ih a h2
    · rw [List.takeWhile_cons_of_neg hx] at h
      cases h

lemma head_dropWhile_false (p : Char → Bool) (l : List Char) :
    ∀ c, (l.dropWhile p).head? = some c → p c = false := by
  intro c hc
  have h := List.head?_dropWhile_not p l
  rw [hc] at h
  exact h

lemma length_dropWhile_le' (p : Char → Bool) :
    ∀ l : List Char, (l.dropWhile p).length ≤ l.length := by
  intro l
  induction l with
  | nil => simp [List.dropWhile]
  | cons x xs ih =>
    rw [List.dropWhile_cons]
    split
    · exact Nat.le_trans ih (by simp)
    · exact Nat.le_refl _

/-- A run of class characters followed by a non-class head is exactly the
`takeWhile` / `dropWhile` split. -/
lemma takeWhile_all (cls : Char → Bool) :
    ∀ (t post : List Char), (∀ c ∈ t, cls c = true) →
      (∀ c, post.head? = some c → cls c = false) →
      (t ++ post).takeWhile cls = t ∧ (t ++ post).dropWhile cls = post := by
  intro t
  induction t with
  | nil =>
    intro post _ hpost
    cases post with
    | nil => exact ⟨rfl, rfl⟩
    | cons p ps =>
      have hp := hpost p rfl
      have hnp : ¬ cls p = true := by simp [hp]
      constructor
      · simp [List.takeWhile_cons_of_neg hnp]
      · simp [List.dropWhile_cons_of_neg hnp]
  | cons a t' ih =>
    intro post hall hpost
    have ha : cls a = true := hall a (List.mem_cons_self _ _)
    rcases ih post (fun c hc => hall c (List.mem_cons_of_mem _ hc)) hpost with ⟨h1, h2⟩
    constructor
    · rw [List.cons_append, List.takeWhile_cons_of_pos ha, h1]
    · rw [List.cons_append, List.dropWhile_cons_of_pos ha, h2]

/-- If a list of the form `pre ++ '#' :: X` is split by `takeWhile`, the
class prefix is an initial segment of `pre` (the `#` is not a class
character). -/
lemma split_after_takeWhile (cls : Char → Bool) (hcls : cls '#' = false) :
    ∀ (pre2 X m : List Char), m = pre2 ++ '#' :: X →
      ∃ q, pre2 = m.takeWhile cls ++ q ∧ m.dropWhile cls = q ++ '#' :: X := by
  intro pre2
  induction pre2 with
  | nil =>
    intro X m hm
    subst hm
    have hnh : ¬ cls '#' = true := by simp [hcls]
    refine ⟨[], ?_, ?_⟩
    · simp [List.takeWhile_cons_of_neg hnh]
    · simp [List.dropWhile_cons_of_neg hnh]
  | cons a p2 ih =>
    intro X m hm
    subst hm
    by_cases ha : cls a = true
    · rcases ih X (p2 ++ '#' :: X) rfl with ⟨q, hq1, hq2⟩
      refine ⟨q, ?_, ?_⟩
      · rw [List.cons_append, List.takeWhile_cons_of_pos ha, List.cons_append, ← hq1]
      · rw [List.cons_append, List.dropWhile_cons_of_pos ha, hq2]
    · have hna : ¬ cls a = true := ha
      refine ⟨a :: p2, ?_, ?_⟩
      · rw [List.cons_append, List.takeWhile_cons_of_neg hna]
        rfl
      · rw [List.cons_append, List.dropWhile_cons_of_neg hna]

lemma isTagToken_nil (cls : Char → Bool) (t : List Char) :
    ¬IsTagToken cls [] t := by
  rintro ⟨pre, post, heq, _, _, _⟩
  cases pre <;> simp at heq

lemma isTagToken_cons_ne (cls : Char → Bool) (c : Char) (l t : List Char) (hc : c ≠ '#') :
    IsTagToken cls (c :: l) t ↔ IsTagToken cls l t := by
  constructor
  · rintro ⟨pre, post, heq, hne, hall, hpost⟩
    cases pre with
    | nil =>
      rw [List.nil_append] at heq
      injection heq with h1 h2
      exact absurd h1 hc
    | cons p pre' =>
      rw [List.cons_append] at heq
      injection heq with h1 h2
      exact ⟨pre', post, h2, hne, hall, hpost⟩
  · rintro ⟨pre, post, heq, hne, hall, hpost⟩
    exact ⟨c :: pre, post, by rw [List.cons_append, heq], hne, hall, hpost⟩

lemma isTagToken_single_hash (cls : Char → Bool) (t : List Char) :
    ¬IsTagToken cls ['#'] t := by
  rintro ⟨pre, post, heq, hne, hall, hpost⟩
  cases pre with
  | nil =>
    rw [List.nil_append] at heq
    injection heq with h1 h2
    cases t with
    | nil => exact hne rfl
    | cons a t2 => rw [List.cons_append] at h2; cases h2
  | cons p pre' =>
    rw [List.cons_append] at heq
    injection heq with h1 h2
    exact absurd h2.symm (by simp)

lemma isTagToken_hash_nocls (cls : Char → Bool) (d : Char) (rest' t : List Char)
    (hd : cls d = false) :
    IsTagToken cls ('#' :: d :: rest') t ↔ IsTagToken cls (d :: rest') t := by
  constructor
  · rintro ⟨pre, post, heq, hne, hall, hpost⟩
    cases pre with
    | nil =>
      rw [List.nil_append] at heq
      injection heq with h1 h2
      cases t with
      | nil => exact absurd rfl hne
      | cons a t2 =>
        rw [List.cons_append] at h2
        injection h2 with h3 h4
        have := hall a (List.mem_cons_self _ _)
        rw [← h3, hd] at this
        cases this
    | cons p pre' =>
      rw [List.cons_append] at heq
      injection heq with h1 h2
      exact ⟨pre', post, h2, hne, hall, hpost⟩
  · rintro ⟨pre, post, heq, hne, hall, hpost⟩
    exact ⟨'#' :: pre, post, by rw [List.cons_append, heq], hne, hall, hpost⟩

lemma isTagToken_hash_cls (cls : Char → Bool) (hcls : cls '#' = false)
    (d : Char) (rest' t : List Char) (hd : cls d = true) :
    IsTagToken cls ('#' :: d :: rest') t ↔
      t = d :: rest'.takeWhile cls ∨ IsTagToken cls (rest'.dropWhile cls) t := by
  constructor
  · rintro ⟨pre, post, heq, hne, hall, hpost⟩
    cases pre with
    | nil =>
      rw [List.nil_append] at heq
      injection heq with h1 h2
      left
      rcases takeWhile_all cls t post hall hpost with ⟨ht, _⟩
      rw [← h2] at ht
      rw [List.takeWhile_cons_of_pos hd] at ht
      exact ht.symm
    | cons p pre' =>
      rw [List.cons_append] at heq
      injection heq with h1 h2
      right
      rcases split_after_takeWhile cls hcls pre' (t ++ post) (d :: rest') h2 with ⟨q, _, hq2⟩
      rw [List.dropWhile_cons_of_pos hd] at hq2
      exact ⟨q, post, hq2, hne, hall, hpost⟩
  · rintro (rfl | ⟨pre, post, heq, hne, hall, hpost⟩)
    · refine ⟨[], rest'.dropWhile cls, ?_, by simp, ?_, ?_⟩
      · rw [List.nil_append]
        simp [List.takeWhile_append_dropWhile]
      · intro c hc
        rcases List.mem_cons.mp hc with rfl | hc2
        · exact hd
        · exact mem_takeWhile_cls cls rest' c hc2
      · exact head_dropWhile_false cls rest'
    · refine ⟨'#' :: d :: rest'.takeWhile cls ++ pre, post, ?_, hne, hall, hpost⟩
      have hsplit : rest' = rest'.takeWhile cls ++ rest'.dropWhile cls :=
        (List.takeWhile_append_dropWhile cls rest').symm
      calc ('#' :: d :: rest' : List Char)
          = '#' :: d :: (rest'.takeWhile cls ++ rest'.dropWhile cls) := by rw [← hsplit]
        _ = '#' :: d :: (rest'.takeWhile cls ++ (pre ++ '#' :: (t ++ post))) := by rw [← heq]
        _ = ('#' :: d :: rest'.takeWhile cls ++ pre) ++ '#' :: (t ++ post) := by
              simp [List.append_assoc]

/-- The scanner's matches are exactly the specification's tag tokens: the
non-empty maximal class runs introduced by a `#` marker. -/
lemma mem_tagMatches_aux (cls : Char → Bool) (hcls : cls '#' = false) :
    ∀ n l, l.length ≤ n → ∀ t, (t ∈ scanGo cls .out l ↔ IsTagToken cls l t) := by
  intro n
  induction n with
  | zero =>
    intro l hl t
    have : l = [] := List.length_eq_zero.mp (Nat.le_zero.mp hl)
    subst this
    simp only [scanGo, List.not_mem_nil, false_iff]
    exact isTagToken_nil cls t
  | succ n ih =>
    intro l hl t
    cases l with
    | nil =>
      simp only [scanGo, List.not_mem_nil, false_iff]
      exact isTagToken_nil cls t
    | cons c rest =>
      simp only [List.length_cons] at hl
      by_cases hc : c = '#'
      · subst hc
        cases rest with
        | nil =>
          rw [show scanGo cls .out ['#'] = [] from rfl]
          simp only [List.not_mem_nil, false_iff]
          exact isTagToken_single_hash cls t
        | cons d rest' =>
          simp only [List.length_cons] at hl
          by_cases hd : cls d = true
          · have hscan : scanGo cls .out ('#' :: d :: rest') =
                (d :: rest'.takeWhile cls) :: scanGo cls .out (rest'.dropWhile cls) := by
              simp only [scanGo, if_pos rfl, hd, if_true]
              rw [scanGo_run_eq]
              simp
            rw [hscan, isTagToken_hash_cls cls hcls d rest' t hd]
            have hlen : (rest'.dropWhile cls).length ≤ n :=
              Nat.le_trans (length_dropWhile_le' cls rest') (by omega)
            rw [List.mem_cons]
            constructor
            · rintro (rfl | hmem)
              · exact Or.inl rfl
              · exact Or.inr ((ih _ hlen t).mp hmem)
            · rintro (rfl | htok)
              · exact Or.inl rfl
              · exact Or.inr ((ih _ hlen t).mpr htok)
          · rw [Bool.not_eq_true] at hd
            have hscan : scanGo cls .out ('#' :: d :: rest') =
                scanGo cls .out (d :: rest') := by
              by_cases hdh : d = '#'
              · subst hdh
                simp [scanGo, hd]
              · simp [scanGo, hd, hdh]
            rw [hscan, isTagToken_hash_nocls cls d rest' t hd]
            exact ih (d :: rest') (by simp; omega) t
      · have hscan : scanGo cls .out (c :: rest) = scanGo cls .out rest := by
          simp [scanGo, hc]
        rw [hscan, isTagToken_cons_ne cls c rest t hc]
        exact ih rest (by omega) t

lemma mem_tagMatches (cls : Char → Bool) (hcls : cls '#' = false) (l t : List Char) :
    t ∈ tagMatches cls l ↔ IsTagToken cls l t :=
  mem_tagMatches_aux cls hcls l.length l (Nat.le_refl _) t

lemma mem_dedupAux : ∀ (l seen : List String) (a : String),
    a ∈ dedupAux seen l ↔ a ∈ l ∧ a ∉ seen := by
  intro l
  induction l with
  | nil => intro seen a; simp [dedupAux]
  | cons x xs ih =>
    intro seen a
    by_cases hx : x ∈ seen
    · rw [dedupAux, if_pos hx, ih]
      constructor
      · rintro ⟨h1, h2⟩; exact ⟨List.mem_cons_of_mem _ h1, h2⟩
      · rintro ⟨h1, h2⟩
        rcases List.mem_cons.mp h1 with rfl | h3
        · exact absurd hx h2
        · exact ⟨h3, h2⟩
    · rw [dedupAux, if_neg hx, List.mem_cons, ih]
      constructor
      · rintro (rfl | ⟨h1, h2⟩)
        · exact ⟨List.mem_cons_self _ _, hx⟩
        · refine ⟨List.mem_cons_of_mem _ h1, fun hs => h2 (List.mem_cons_of_mem _ hs)⟩
      · rintro ⟨h1, h2⟩
        by_cases hax : a = x
        · exact Or.inl hax
        · rcases List.mem_cons.mp h1 with rfl | h3
          · exact Or.inl rfl
          · refine Or.inr ⟨h3, fun hs => ?_⟩
            rcases List.mem_cons.mp hs with rfl | h4
            · exact hax rfl
            · exact h2 h4

lemma nodup_dedupAux : ∀ (l seen : List String), (dedupAux seen l).Nodup := by
  intro l
  induction l with
  | nil => intro seen; simp [dedupAux]
  | cons x xs ih =>
    intro seen
    by_cases hx : x ∈ seen
    · rw [dedupAux, if_pos hx]; exact ih seen
    · rw [dedupAux, if_neg hx]
      refine List.Nodup.cons ?_ (ih (x :: seen))
      intro hmem
      exact ((mem_dedupAux xs (x :: seen) x).mp hmem).2 (List.mem_cons_self _ _)

lemma dedupAux_eq_keepFirst : ∀ (l seen : List String),
    dedupAux seen l = keepFirstOccurrences (l.filter (fun y => decide (y ∉ seen))) := by
  intro l
  induction l with
  | nil => intro seen; simp [dedupAux, keepFirstOccurrences]
  | cons x xs ih =>
    intro seen
    by_cases hx : x ∈ seen
    · rw [dedupAux, if_pos hx, List.filter_cons, if_neg (by simp [hx]), ih]
    · rw [dedupAux, if_neg hx, List.filter_cons, if_pos (by simp [hx]), keepFirstOccurrences]
      congr 1
      rw [ih (x :: seen), List.filter_filter]
      congr 1
      apply List.filter_congr
      intro y _
      by_cases h1 : y = x
      · subst h1; simp
      · by_cases h2 : y ∈ seen <;> simp [h1, h2]

lemma filter_true_mem (l : List String) :
    l.filter (fun y => decide (y ∉ ([] : List String))) = l := by
  induction l with
  | nil => rfl
  | cons x xs ih => rw [List.filter_cons, if_pos (by simp), ih]

/-- A run of 51 `a`s: a tag token by the claim's definition (a `#` marker
followed by allowed characters), but longer than 50. -/
def c6LongRun : List Char := List.replicate 51 'a'

/-- C6, counterexample: on the text `"#" ++ "a"*51` the token `a*51` is a
tag token introduced by a `#` marker followed by allowed characters, and
the backend extractor returns it — but the frontend extractor drops every
capture longer than 50 characters and returns the empty sequence, so the
two cited implementations do not both satisfy the claim. -/
theorem c6_counterexample :
    c6LongRun.length = 51 ∧
    IsTagToken jsTagChar ('#' :: c6LongRun) c6LongRun ∧
    extractTagsTs (String.mk ('#' :: c6LongRun)) = [] ∧
    extractTagsGo (String.mk ('#' :: c6LongRun)) = [String.mk c6LongRun] := by
  refine ⟨by decide, ⟨[], [], by simp, by decide, by decide, by simp⟩, by decide, by decide⟩

/-- C6 (amended): both extractors are total functions that return distinct
tokens in first-occurrence order with duplicates collapsed to the first
occurrence, and unmatched text contributes nothing — the backend returns
exactly the tag tokens (maximal non-empty runs of its allowed characters
after a `#` marker, with the Han script as the CJK range), while the
frontend additionally drops tokens longer than 50 characters and restricts
the CJK range to U+4E00 – U+9FA5. -/
theorem c6_extractor_amended (text : String) :
    (extractTagsGo text).Nodup ∧
    (∀ t, t ∈ extractTagsGo text ↔
      ∃ r, IsTagToken goTagChar text.data r ∧ t = String.mk r) ∧
    extractTagsGo text =
      keepFirstOccurrences ((tagMatches goTagChar text.data).map (fun r => String.mk r)) ∧
    (extractTagsTs text).Nodup ∧
    (∀ t, t ∈ extractTagsTs text ↔
      ∃ r, IsTagToken jsTagChar text.data r ∧ r.length ≤ 50 ∧ t = String.mk r) ∧
    extractTagsTs text =
      keepFirstOccurrences (((tagMatches jsTagChar text.data).filter
        (fun r => decide (r.length ≤ 50))).map (fun r => String.mk r)) := by
  have hgo : goTagChar '#' = false := by decide
  have hjs : jsTagChar '#' = false := by decide
  refine ⟨nodup_dedupAux _ _, ?_, ?_, nodup_dedupAux _ _, ?_, ?_⟩
  · intro t
    rw [extractTagsGo, mem_dedupAux]
    simp only [List.not_mem_nil, not_false_iff, and_true]
    rw [List.mem_map]
    constructor
    · rintro ⟨r, hr, rfl⟩
      exact ⟨r, (mem_tagMatches goTagChar hgo _ r).mp hr, rfl⟩
    · rintro ⟨r, hr, rfl⟩
      exact ⟨r, (mem_tagMatches goTagChar hgo _ r).mpr hr, rfl⟩
  · rw [extractTagsGo, dedupAux_eq_keepFirst, filter_true_mem]
  · intro t
    rw [extractTagsTs, mem_dedupAux]
    simp only [List.not_mem_nil, not_false_iff, and_true]
    rw [List.mem_map]
    constructor
    · rintro ⟨r, hr, rfl⟩
      rcases List.mem_filter.mp hr with ⟨hr1, hr2⟩
      exact ⟨r, (mem_tagMatches jsTagChar hjs _ r).mp hr1, by simpa using hr2, rfl⟩
    · rintro ⟨r, hr1, hr2, rfl⟩
      exact ⟨r, List.mem_filter.mpr
        ⟨(mem_tagMatches jsTagChar hjs _ r).mpr hr1, by simpa using hr2⟩, rfl⟩
  · rw [extractTagsTs, dedupAux_eq_keepFirst, filter_true_mem]

/-- C6, witness: the amended theorem applied to a concrete text; the token
`"ab"` of `"x #ab y"` is extracted by the backend extractor. -/
theorem c6_extractor_amended_witness :
    ("ab" : String) ∈ extractTagsGo "x #ab y" :=
  ((c6_extractor_amended "x #ab y").2.1 "ab").mpr
    ⟨['a', 'b'], ⟨['x', ' '], [' ', 'y'], by decide, by decide, by decide, by decide⟩, rfl⟩

/-- The scanner only inspects the class on characters of the text, so two
classes that agree on every character of the text scan identically. -/
lemma scanGo_congr (cls1 cls2 : Char → Bool) :
    ∀ l, (∀ c ∈ l, cls1 c = cls2 c) → ∀ st, scanGo cls1 st l = scanGo cls2 st l := by
  intro l
  induction l with
  | nil => intro _ st; cases st <;> rfl
  | cons c rest ih =>
    intro h st
    have hc : cls1 c = cls2 c := h c (List.mem_cons_self _ _)
    have hrest : ∀ x ∈ rest, cls1 x = cls2 x := fun x hx => h x (List.mem_cons_of_mem _ hx)
    cases st with
    | out =>
      by_cases hch : c = '#'
      · simp only [scanGo, hch, if_pos rfl]
        exact ih hrest .hash
      · simp only [scanGo, if_neg hch]
        exact ih hrest .out
    | hash =>
      by_cases h1 : cls1 c = true
      · have h2 : cls2 c = true := by rw [← hc]; exact h1
        simp only [scanGo, h1, h2, if_true]
        exact ih hrest (.run [c])
      · rw [Bool.not_eq_true] at h1
        have h2 : cls2 c = false := by rw [← hc]; exact h1
        by_cases hch : c = '#'
        · subst hch
          simp only [scanGo, h1, h2, Bool.false_eq_true, if_false, if_true]
          exact ih hrest .hash
        · simp only [scanGo, h1, h2, Bool.false_eq_true, if_false, if_neg hch]
          exact ih hrest .out
    | run acc =>
      by_cases h1 : cls1 c = true
      · have h2 : cls2 c = true := by rw [← hc]; exact h1
        simp only [scanGo, h1, h2, if_true]
        exact ih hrest (.run (c :: acc))
      · rw [Bool.not_eq_true] at h1
        have h2 : cls2 c = false := by rw [← hc]; exact h1
        by_cases hch : c = '#'
        · subst hch
          simp only [scanGo, h1, h2, Bool.false_eq_true, if_false, if_true]
          rw [ih hrest .hash]
        · simp only [scanGo, h1, h2, Bool.false_eq_true, if_false, if_neg hch]
          rw [ih hrest .out]

/-- C10, counterexample: the ideograph `㐀` (U+3400, CJK Extension A) is in
the Han script, so the backend regex `[a-zA-Z0-9\p{Han}]` matches it —
`extractTags "#㐀"` returns `["㐀"]` — but it is outside the frontend range
U+4E00 – U+9FA5, so the frontend regex finds no match and returns `[]`: the
two implementations are not equivalent. -/
theorem c10_counterexample :
    isHan '㐀' = true ∧
    jsTagChar '㐀' = false ∧
    extractTagsGo (String.mk ['#', '㐀']) = [String.mk ['㐀']] ∧
    extractTagsTs (String.mk ['#', '㐀']) = [] ∧
    extractTagsGo (String.mk ['#', '㐀']) ≠ extractTagsTs (String.mk ['#', '㐀']) :=
  ⟨by decide, by decide, by decide, by decide, by decide⟩

/-- C10 (amended): the two extractors agree on every text whose characters
are classified identically by the two character classes (for example ASCII
plus U+4E00 – U+9FA5, the intersection's main part) and whose tag tokens
are all at most 50 characters long.  They differ on texts using Han
characters outside U+4E00 – U+9FA5 (backend-only) or tokens longer than 50
characters (dropped by the frontend only). -/
theorem c10_equiv_amended (text : String)
    (h1 : ∀ c ∈ text.data, jsTagChar c = goTagChar c)
    (h2 : ∀ r ∈ tagMatches goTagChar text.data, r.length ≤ 50) :
    extractTagsTs text = extractTagsGo text := by
  have hmatches : tagMatches jsTagChar text.data = tagMatches goTagChar text.data :=
    scanGo_congr jsTagChar goTagChar text.data h1 .out
  have hfil : (tagMatches goTagChar text.data).filter (fun r => decide (r.length ≤ 50)) =
      tagMatches goTagChar text.data := by
    apply List.filter_eq_self.mpr
    intro r hr
    simpa using h2 r hr
  rw [extractTagsTs, extractTagsGo, hmatches, hfil]

/-- C10, witness: the amended theorem applied to a concrete text with ASCII
and common-range CJK tags, where both extractors agree. -/
theorem c10_equiv_amended_witness :
    extractTagsTs "#hello #世界 ok" = extractTagsGo "#hello #世界 ok" :=
  c10_equiv_amended "#hello #世界 ok" (by decide) (by decide)
